import Mathlib

/-!
Verification of the content-transformation pipeline of the `ideeep`
static-site compiler (`src/main.rs`) against its natural-language
specification.

Strings are modelled as `List Char` (the sources only ever inspect ASCII
delimiters, so Rust byte indices and character indices coincide on every
input the claims are about).  External collaborators consumed as pure
functions — the two KaTeX renderers (each already composed with its
`unwrap_or_else` error fallback) and the YAML front-matter deserializer —
are taken as function parameters, so every theorem below holds for every
instantiation of them.
-/

namespace Ideeep

/-! ### Shared string primitives -/

/-- Boolean prefix test on character lists; mirrors Rust `str::starts_with`
with a string pattern. -/
def isPrefixList : List Char → List Char → Bool
  | [], _ => true
  | _ :: _, [] => false
  | a :: as, b :: bs => a == b && isPrefixList as bs

/-- Boolean substring test; mirrors Rust `str::contains` with a string
pattern (true iff the pattern occurs contiguously somewhere in the list). -/
def containsSeq (pat : List Char) : List Char → Bool
  | [] => isPrefixList pat []
  | c :: rest => isPrefixList pat (c :: rest) || containsSeq pat rest

/-- Boolean suffix test on character lists; mirrors Rust `str::ends_with`. -/
def isSuffixList (pat l : List Char) : Bool := isPrefixList pat.reverse l.reverse

/-- First index of character `c`; mirrors Rust `str::find(char)`. -/
def charIdx? (c : Char) : List Char → Option Nat
  | [] => none
  | a :: rest => if a = c then some 0 else (charIdx? c rest).map (· + 1)

/-- First index at which a pattern occurs; mirrors Rust `str::find(&str)`. -/
def findSeqIdx? (pat : List Char) : List Char → Option Nat
  | [] => if isPrefixList pat [] then some 0 else none
  | c :: rest =>
    if isPrefixList pat (c :: rest) then some 0
    else (findSeqIdx? pat rest).map (· + 1)

/-- Last index of character `c` in a list, if any. -/
def lastIdxOf (c : Char) : List Char → Option Nat
  | [] => none
  | a :: rest =>
    match lastIdxOf c rest with
    | some i => some (i + 1)
    | none => if a = c then some 0 else none

/-- Rust `u8::to_ascii_lowercase` on a character. -/
def asciiLower (c : Char) : Char :=
  if 'A' ≤ c ∧ c ≤ 'Z' then Char.ofNat (c.toNat + 32) else c

/-- Rust `str::eq_ignore_ascii_case`. -/
def eqIgnoreAsciiCase (a b : List Char) : Bool :=
  a.map asciiLower == b.map asciiLower

/-- Rust `str::trim_start` (leading-whitespace removal; the inputs the
claims are about contain only ASCII whitespace, where the Rust and Lean
whitespace predicates agree). -/
def trimStartList (l : List Char) : List Char := l.dropWhile Char.isWhitespace

/-- The final `/`-separated segment of a path key (the whole key when it has
no `/`); mirrors Rust `Path::file_stem` applied to the extension-less
relative path. -/
def lastSegment (l : List Char) : List Char :=
  (l.reverse.takeWhile (fun c => !(c == '/'))).reverse

/-- Join path segments with `/`; mirrors how relative paths print with
normalized separators. -/
def joinSlash : List (List Char) → List Char
  | [] => []
  | [x] => x
  | x :: y :: rest => x ++ '/' :: joinSlash (y :: rest)

/-! ### Math scanner (`preprocess_math`, `src/main.rs` lines 46-160) -/

/-- Outcome of the inline `$…$` scan loop of `preprocess_math`
(`src/main.rs` lines 77-93): the loop either finds a closing `$`
(`found tex rest`), hits a newline first (`nl tex rest`, with `rest` the
characters after the newline), or exhausts the input (`eof tex`). -/
inductive InlineScan where
  | found (tex rest : List Char)
  | nl (tex rest : List Char)
  | eof (tex : List Char)

/-- The inline `$…$` scan loop of `preprocess_math` (`src/main.rs` lines
79-93): collect characters into `tex` until a `$`, a newline, or end of
input. -/
def scanInline : List Char → InlineScan
  | [] => .eof []
  | c :: rest =>
    if c = '$' then .found [] rest
    else if c = '\n' then .nl [] rest
    else
      match scanInline rest with
      | .found t r => .found (c :: t) r
      | .nl t r => .nl (c :: t) r
      | .eof t => .eof (c :: t)

/-- The two-character-terminator scan loops of `preprocess_math`
(`src/main.rs` lines 57-64 with `c1 = c2 = '$'`, lines 110-117 with
`c1 = '\\', c2 = ')'`, lines 130-137 with `c1 = '\\', c2 = ']'`): collect
characters into `tex`; on the first adjacent occurrence of `c1 c2` consume
both and return the collected `tex` with the remaining input.  `none` means
the terminator never occurred; in that case the Rust loop has pushed the
whole remaining input into `tex`, so the caller re-emits the whole
remainder. -/
def scanClosed (c1 c2 : Char) : List Char → Option (List Char × List Char)
  | c :: cn :: rest =>
    if c = c1 ∧ cn = c2 then some ([], rest)
    else
      match scanClosed c1 c2 (cn :: rest) with
      | some (t, r) => some (c :: t, r)
      | none => none
  | _ => none

/-- Fuel-indexed main loop of `preprocess_math` (`src/main.rs` lines 50-157).
Each iteration of the Rust `while` loop consumes at least one character, so
fuel `length + 1` (used by `preprocess_math` below) never runs out.  The
Rust one-character lookahead `chars.peek()` is `rest.head?` here.  `rD`
(resp. `rI`) is the display (resp. inline) KaTeX call composed with its
error fallback, applied to the scanned TeX source. -/
def ppm (rD rI : List Char → List Char) : Nat → List Char → List Char
  | 0, l => l
  | _ + 1, [] => []
  | fuel + 1, c :: rest =>
    if c = '$' then
      if rest.head? = some '$' then
        match scanClosed '$' '$' rest.tail with
        | some (tex, r) => rD tex ++ ppm rD rI fuel r
        | none => '$' :: '$' :: rest.tail
      else
        match scanInline rest with
        | .found tex r =>
          if tex = [] then '$' :: tex ++ ppm rD rI fuel r
          else rI tex ++ ppm rD rI fuel r
        | .nl tex r => '$' :: (tex ++ '\n' :: '$' :: ppm rD rI fuel r)
        | .eof tex => '$' :: tex
    else if c = '\\' then
      if rest.head? = some '(' then
        match scanClosed '\\' ')' rest.tail with
        | some (tex, r) => rI tex ++ ppm rD rI fuel r
        | none => '\\' :: '(' :: rest.tail
      else if rest.head? = some '[' then
        match scanClosed '\\' ']' rest.tail with
        | some (tex, r) => rD tex ++ ppm rD rI fuel r
        | none => '\\' :: '[' :: rest.tail
      else '\\' :: ppm rD rI fuel rest
    else c :: ppm rD rI fuel rest

/-- `preprocess_math` (`src/main.rs` lines 46-160), parameterised by the two
KaTeX render-with-fallback collaborators. -/
def preprocess_math (rD rI : List Char → List Char) (s : List Char) : List Char :=
  ppm rD rI (s.length + 1) s

/-! ### Link rewriter (`convert_internal_links`, `src/main.rs` lines 162-232)

The surrounding regex pass applies, to each anchor `href` value found in the
rendered HTML, the per-href classification and rewrite of lines 176-220;
`rewriteHref` below is that per-href transformation.  `none` models the Rust
`continue` (the anchor is left byte-identical); `some new` models replacing
the href value by `new`.  The known-slug set is a Rust `HashSet` whose
iteration order is unspecified; the model takes it as a list in iteration
order (no claim below depends on that order). -/

/-- The external-link classification of `src/main.rs` lines 176-179. -/
def isExternalHref (href : List Char) : Bool :=
  isPrefixList "http://".toList href || isPrefixList "https://".toList href ||
  isPrefixList "mailto:".toList href || isPrefixList "#".toList href ||
  isPrefixList "/".toList href || containsSeq "://".toList href

/-- The base/suffix split of `src/main.rs` lines 182-191: split at the first
`#` if the href contains one, else at the first `?`, else no suffix. -/
def splitHref (href : List Char) : List Char × List Char :=
  match charIdx? '#' href with
  | some pos => (href.take pos, href.drop pos)
  | none =>
    match charIdx? '?' href with
    | some pos => (href.take pos, href.drop pos)
    | none => (href, [])

/-- Rust `str::replace(".md", ".html")` (`src/main.rs` line 195): replace
every non-overlapping occurrence of `.md`, scanning left to right. -/
def replaceMdHtml : List Char → List Char
  | [] => []
  | [c] => [c]
  | [c, c2] => [c, c2]
  | c :: c2 :: c3 :: rest =>
    if c = '.' ∧ c2 = 'm' ∧ c3 = 'd' then
      '.' :: 'h' :: 't' :: 'm' :: 'l' :: replaceMdHtml rest
    else c :: replaceMdHtml (c2 :: c3 :: rest)

/-- The per-href transformation of `convert_internal_links`
(`src/main.rs` lines 176-220). -/
def rewriteHref (slugs : List (List Char)) (href : List Char) : Option (List Char) :=
  if isExternalHref href then none
  else if isSuffixList ".md".toList (splitHref href).1 then
    some (replaceMdHtml (splitHref href).1 ++ (splitHref href).2)
  else if (splitHref href).1.contains '.' then none
  else
    match slugs.find? (fun p =>
        p == (splitHref href).1 || isSuffixList ('/' :: (splitHref href).1) p) with
    | some m => some (m ++ ".html".toList ++ (splitHref href).2)
    | none => none

/-- The base-path rewrite of `src/main.rs` lines 193-220 with the
fragment/query reattachment factored out; `rewriteHref_factors` below proves
the factoring. -/
def rewriteBase (slugs : List (List Char)) (base : List Char) : Option (List Char) :=
  if isSuffixList ".md".toList base then some (replaceMdHtml base)
  else if base.contains '.' then none
  else
    match slugs.find? (fun p => p == base || isSuffixList ('/' :: base) p) with
    | some m => some (m ++ ".html".toList)
    | none => none

/-! ### Front-matter splitter (`extract_frontmatter`, `src/main.rs` lines 19-35) -/

/-- The deserialized front-matter record (`src/main.rs` lines 7-10); only
the optional `title` field exists. -/
structure FrontMatter where
  title : Option (List Char)

/-- `extract_frontmatter` (`src/main.rs` lines 19-35), parameterised by the
`serde_yaml::from_str` collaborator (`parse`, `none` modelling a parse
error).  The Rust code checks for a leading `---\n`, finds the first
`---\n` in `content[4..]` (at relative offset `e`), parses the enclosed
region `content[4..e+4]`, and on success returns the remainder
`content[e+8..]` as body. -/
def extract_frontmatter (parse : List Char → Option FrontMatter)
    (content : List Char) : Option FrontMatter × List Char :=
  if isPrefixList "---\n".toList content then
    match findSeqIdx? "---\n".toList (content.drop 4) with
    | some e =>
      match parse ((content.drop 4).take e) with
      | some fm => (some fm, content.drop (e + 8))
      | none => (none, content)
    | none => (none, content)
  else (none, content)

/-! ### Site configuration and navigation model (`src/main.rs` lines 12-17,
246-251, 876-1089)

YAML values read out of the configuration are modelled by the shapes the
code actually distinguishes.  The `dropdowns` field is a Rust
`std::collections::HashMap`, whose iteration order is unspecified and
varies between runs; the model therefore takes the dropdown map as an
association list *in iteration order*, and permutation of that list models
the same configuration observed in two different runs. -/

/-- An entry of `page_order`/`navbar_order` as the code reads it: a YAML
string, a YAML mapping (from which only the optional string fields `url`
and `text` are read on the `page_order` path), or any other YAML value
(ignored). -/
inductive OrderEntry where
  | str (s : List Char)
  | mapping (url text : Option (List Char))
  | other
deriving DecidableEq

/-- An item of a sequence-valued dropdown: a YAML string naming a page, a
mapping with `url`/`text` fields, or any other value (ignored). -/
inductive DropItem where
  | str (s : List Char)
  | urlText (url text : List Char)
  | other
deriving DecidableEq

/-- A dropdown value: a name-to-url mapping, a sequence of items, or any
other YAML value (ignored). -/
inductive DropVal where
  | mapping (pairs : List (List Char × List Char))
  | seq (items : List DropItem)
  | other
deriving DecidableEq

/-- `NavbarItem` (`src/main.rs` lines 246-251).  A markdown-file item is
identified here by its extension-less separator-normalized relative key
(the Rust code stores the `.md` relative path and recomputes this key). -/
inductive NavbarItem where
  | markdownFile (relKey title : List Char)
  | externalLink (url text : List Char)
  | dropdown (name : List Char)
deriving DecidableEq

/-- Membership in the `pages_in_dropdowns` set (`src/main.rs` lines
951-969): a key is in the set iff some sequence-valued dropdown lists it as
a plain string item.  (The Rust set is a `HashSet`; only membership is ever
consulted, which is independent of iteration order.) -/
def pageInDropdowns (dd : List (List Char × DropVal)) (key : List Char) : Bool :=
  dd.any (fun p =>
    match p.2 with
    | .seq items => items.any (fun it =>
        match it with
        | .str s => s == key
        | _ => false)
    | _ => false)

/-- Navbar-item construction on the `page_order` path (`src/main.rs` lines
1028-1072): explicit entries resolved from the order list, then one
`Dropdown` per configured dropdown in the map's iteration order.  `docs` is
the processed document list as `(relative key, title)` pairs. -/
def navbarItemsPageOrder (order : List OrderEntry)
    (docs : List (List Char × List Char)) (dd : List (List Char × DropVal)) :
    List NavbarItem :=
  (order.filterMap (fun entry =>
    match entry with
    | .str pageName =>
      match docs.find? (fun d =>
          d.1 == pageName || isSuffixList ('/' :: pageName) d.1) with
      | some d =>
        if d.1 == "index".toList ||
            (!(pageInDropdowns dd d.1) && !(pageInDropdowns dd pageName)) then
          some (.markdownFile d.1 d.2)
        else none
      | none => none
    | .mapping (some url) (some text) => some (.externalLink url text)
    | .mapping _ _ => none
    | .other => none)) ++
  dd.map (fun p => NavbarItem.dropdown p.1)

/-- Navbar-item construction on the no-ordering path (`src/main.rs` lines
1073-1088): all processed documents (filtered by dropdown suppression),
then one `Dropdown` per configured dropdown in the map's iteration order. -/
def navbarItemsDefault (docs : List (List Char × List Char))
    (dd : List (List Char × DropVal)) : List NavbarItem :=
  (docs.filterMap (fun d =>
    if d.1 == "index".toList || !(pageInDropdowns dd d.1) then
      some (NavbarItem.markdownFile d.1 d.2)
    else none)) ++
  dd.map (fun p => NavbarItem.dropdown p.1)

/-- The `is_active` flag of each navigation entry that `generate_navbar`
emits with a `nav-link` class (`src/main.rs` lines 365-405), in emission
order: first the synthesized root/logo entry (active iff the current page
is `index`, line 369), then per item — markdown entries other than `index`
(which is skipped, line 395) are active iff the current page key equals the
entry's relative key or its filename stem (line 399); external links and
dropdowns never carry the active class. -/
def entryActiveFlag (cp : Option (List Char)) : NavbarItem → Option Bool
  | .markdownFile relKey _ =>
    if relKey = "index".toList then none
    else some (match cp with
      | some c => decide (c = relKey) || decide (c = lastSegment relKey)
      | none => false)
  | .externalLink _ _ => some false
  | .dropdown _ => some false

/-- The list of active flags of one navbar render (see `entryActiveFlag`). -/
def navbarActiveFlags (items : List NavbarItem) (cp : Option (List Char)) :
    List Bool :=
  (match cp with
   | some c => decide (c = "index".toList)
   | none => false) ::
  items.filterMap (entryActiveFlag cp)

/-- The relative keys of the markdown-file items of a navbar. -/
def mdKeys (items : List NavbarItem) : List (List Char) :=
  items.filterMap (fun item =>
    match item with
    | .markdownFile relKey _ => some relKey
    | _ => none)

/-! ### Document ordering (`src/main.rs` lines 876-949) -/

/-- Position of a document key in the order list (`src/main.rs` lines
903-916): the first order entry that is a string equal to the key or whose
`/`-prefixed form is a suffix of the key. -/
def pagePos (order : List OrderEntry) (key : List Char) : Option Nat :=
  order.findIdx? (fun x =>
    match x with
    | .str pageName => pageName == key || isSuffixList ('/' :: pageName) key
    | _ => false)

/-- Rust lexicographic string comparison producing `Less`
(`a_key.cmp(&b_key) == Ordering::Less`). -/
def lexLT : List Char → List Char → Bool
  | [], [] => false
  | [], _ :: _ => true
  | _ :: _, [] => false
  | a :: as, b :: bs => if a < b then true else if b < a then false else lexLT as bs

/-- The sort comparator of `src/main.rs` lines 894-924, as a boolean
`a ≤ b` (Rust `cmp(a, b) ≠ Greater`): listed pages by order position,
listed before unlisted, unlisted lexicographically. -/
def docLE (order : List OrderEntry) (a b : List Char) : Bool :=
  match pagePos order a, pagePos order b with
  | some i, some j => i ≤ j
  | some _, none => true
  | none, some _ => false
  | none, none => !(lexLT b a)

/-- Stable insertion of an element into a sorted list (keeps the inserted
element before later equal elements). -/
def insertLe {α : Type} (le : α → α → Bool) (a : α) : List α → List α
  | [] => [a]
  | b :: l => if le a b then a :: b :: l else b :: insertLe le a l

/-- A stable comparator sort.  Rust `Vec::sort_by` is a stable sort; for a
total comparator (as `docLE` is) every stable sort computes the same list,
so this models `sort_by` faithfully. -/
def sortByStable {α : Type} (le : α → α → Bool) : List α → List α
  | [] => []
  | a :: l => insertLe le a (sortByStable le l)

/-- The document ordering of `src/main.rs` lines 876-932 (the `page_order`
branch), at the level of relative keys: the `index` document first, then
the remaining documents sorted by `docLE`. -/
def sortDocs (order : List OrderEntry) (docs : List (List Char)) :
    List (List Char) :=
  docs.filter (fun k => k == "index".toList) ++
  sortByStable (docLE order) (docs.filter (fun k => !(k == "index".toList)))

/-- All ways to insert an element into a list, used to enumerate the
possible discovery orders of a document set. -/
def insertEverywhere {α : Type} (a : α) : List α → List (List α)
  | [] => [[a]]
  | b :: l => (a :: b :: l) :: (insertEverywhere a l).map (b :: ·)

/-- All permutations of a list (a structural enumerator, so that concrete
instances evaluate inside the kernel). -/
def allPerms {α : Type} : List α → List (List α)
  | [] => [[]]
  | a :: l => (allPerms l).flatMap (insertEverywhere a)

/-! ### Document discovery (`find_markdown_files`, `src/main.rs` lines
776-823)

The recursive directory traversal visits every file below the content root;
`entries` lists the visited files, each with its directory segments,
filename and contents.  `find_markdown_files` keeps exactly the files the
Rust per-file logic pushes; the processing loop (lines 1101-1128) then
writes one output page per kept file, and the known-slug set for link
rewriting (lines 1092-1098) and the default navbar entries derive from the
kept files alone. -/

/-- A visited file: directory segments from the content root, filename,
contents. -/
structure FsEntry where
  dirs : List (List Char)
  filename : List Char
  content : List Char
deriving DecidableEq

/-- Rust `Path::file_stem`/`Path::extension` on a filename: split at the
last `.`, except that a dot at position 0 (a leading-dot file) yields no
extension. -/
def fileStemExt (name : List Char) : List Char × Option (List Char) :=
  match lastIdxOf '.' name with
  | some i =>
    if i = 0 then (name, none) else (name.take i, some (name.drop (i + 1)))
  | none => (name, none)

/-- The per-file keep decision of `find_markdown_files` (`src/main.rs`
lines 788-801): keep iff the extension is `md`, the stem is not `README`
under ASCII-case-insensitive comparison, and the contents (after leading
whitespace) start with neither `<!DOCTYPE` nor `<html`. -/
def fileKept (name content : List Char) : Bool :=
  (fileStemExt name).2 == some "md".toList &&
  !(eqIgnoreAsciiCase (fileStemExt name).1 "README".toList) &&
  !(isPrefixList "<!DOCTYPE".toList (trimStartList content)) &&
  !(isPrefixList "<html".toList (trimStartList content))

/-- The discovered document set (`src/main.rs` lines 776-823). -/
def find_markdown_files (entries : List FsEntry) : List FsEntry :=
  entries.filter (fun e => fileKept e.filename e.content)

/-- A file's slug: its directory segments joined with its filename stem
(`relative_path.with_extension("")` normalized to `/`). -/
def slugOf (e : FsEntry) : List Char :=
  joinSlash (e.dirs ++ [(fileStemExt e.filename).1])

/-- The known-slug set used for link rewriting (`src/main.rs` lines
1092-1098): the slugs of the discovered files. -/
def knownSlugs (entries : List FsEntry) : List (List Char) :=
  (find_markdown_files entries).map slugOf

/-- A discovered file's display title (`src/main.rs` lines 803-811): the
front-matter `title` when present, else the filename stem. -/
def titleOf (parse : List Char → Option FrontMatter) (e : FsEntry) : List Char :=
  match (extract_frontmatter parse e.content).1 with
  | some fm => fm.title.getD (fileStemExt e.filename).1
  | none => (fileStemExt e.filename).1

/-- The discovered documents as `(slug, title)` pairs — the inputs of page
generation and navbar construction. -/
def discoveredDocs (parse : List Char → Option FrontMatter)
    (entries : List FsEntry) : List (List Char × List Char) :=
  (find_markdown_files entries).map (fun e => (slugOf e, titleOf parse e))

/-! ## Theorems -/

/-! ### Math scanner: C1 and C7 -/

/-- A list with no adjacent `c1 c2` pair drives the terminator scan to its
unterminated outcome. -/
theorem scanClosed_eq_none (c1 c2 : Char) (l : List Char)
    (h : containsSeq [c1, c2] l = false) : scanClosed c1 c2 l = none := by
  induction l with
  | nil => rfl
  | cons c rest ih =>
    cases rest with
    | nil => rfl
    | cons cn rest2 =>
      rw [containsSeq, Bool.or_eq_false_iff] at h
      obtain ⟨hpre, hrest⟩ := h
      have hne : ¬(c = c1 ∧ cn = c2) := by
        intro hcc
        simp [isPrefixList, hcc.1, hcc.2] at hpre
      have hrec := ih hrest
      simp only [scanClosed, if_neg hne, hrec]

/-- A list containing neither `$` nor a newline drives the inline scan to
its end-of-input outcome with the whole list as collected TeX. -/
theorem scanInline_eof (l : List Char) (h : ∀ c ∈ l, c ≠ '$' ∧ c ≠ '\n') :
    scanInline l = .eof l := by
  induction l with
  | nil => rfl
  | cons c rest ih =>
    have hc := h c (List.mem_cons_self c rest)
    rw [scanInline, if_neg hc.1, if_neg hc.2,
      ih (fun x hx => h x (List.mem_cons_of_mem c hx))]

/-- C1: the claim says an inline `$` span interrupted by a newline is
re-emitted verbatim with no characters added or removed.  The code instead
emits one extra `$`: on input `$ab\ncd` the newline branch (`src/main.rs`
lines 84-91) pushes `$`, the scanned text and the newline, clears `tex`,
breaks — and then the `found_end`-false fallback (lines 98-101) pushes a
second `$`.  The output is `$ab\n$cd`, one character longer than the input,
for every instantiation of the two KaTeX collaborators (neither is invoked
on this input). -/
theorem c1_inline_newline_adds_dollar (rD rI : List Char → List Char) :
    preprocess_math rD rI "$ab\ncd".toList = "$ab\n$cd".toList := rfl

/-- C7: for each of the four delimiter grammars (`$$…$$`, `$…$`, `\(…\)`,
`\[…\]`), when the opening delimiter is never followed by a valid terminator
before end of input (`$$`, a `$` or newline, `\)`, `\]` respectively), the
output is exactly the original opening delimiter followed by all scanned
text unchanged, and no render call is made (the equalities hold for every
`rD`, `rI`). -/
theorem c7_unterminated_verbatim (rD rI : List Char → List Char)
    (r1 r2 r3 r4 : List Char)
    (h1 : containsSeq ['$', '$'] r1 = false)
    (h2 : ∀ c ∈ r2, c ≠ '$' ∧ c ≠ '\n')
    (h3 : containsSeq ['\\', ')'] r3 = false)
    (h4 : containsSeq ['\\', ']'] r4 = false) :
    preprocess_math rD rI ('$' :: '$' :: r1) = '$' :: '$' :: r1 ∧
    preprocess_math rD rI ('$' :: r2) = '$' :: r2 ∧
    preprocess_math rD rI ('\\' :: '(' :: r3) = '\\' :: '(' :: r3 ∧
    preprocess_math rD rI ('\\' :: '[' :: r4) = '\\' :: '[' :: r4 := by
  refine ⟨?_, ?_, ?_, ?_⟩
  · show ppm rD rI (('$' :: '$' :: r1).length + 1) ('$' :: '$' :: r1) = _
    simp [ppm, scanClosed_eq_none '$' '$' r1 h1]
  · show ppm rD rI (('$' :: r2).length + 1) ('$' :: r2) = _
    have hhead : r2.head? ≠ some '$' := by
      cases r2 with
      | nil => simp
      | cons c rest =>
        have := h2 c (List.mem_cons_self c rest)
        simp [this.1]
    simp [ppm, hhead, scanInline_eof r2 h2]
  · show ppm rD rI (('\\' :: '(' :: r3).length + 1) ('\\' :: '(' :: r3) = _
    simp [ppm, scanClosed_eq_none '\\' ')' r3 h3]
  · show ppm rD rI (('\\' :: '[' :: r4).length + 1) ('\\' :: '[' :: r4) = _
    simp [ppm, scanClosed_eq_none '\\' ']' r4 h4]

/-- Witness for C7 at concrete unterminated inputs for all four grammars. -/
theorem c7_unterminated_verbatim_witness :
    preprocess_math (fun l => l) (fun l => l) "$$abc".toList = "$$abc".toList ∧
    preprocess_math (fun l => l) (fun l => l) "$xy".toList = "$xy".toList ∧
    preprocess_math (fun l => l) (fun l => l) "\\(a(b".toList = "\\(a(b".toList ∧
    preprocess_math (fun l => l) (fun l => l) "\\[[z".toList = "\\[[z".toList :=
  c7_unterminated_verbatim (fun l => l) (fun l => l)
    "abc".toList "xy".toList "a(b".toList "[z".toList
    (by decide) (by decide) (by decide) (by decide)

/-! ### Link rewriter: C3, C4, C5 -/

/-- When `charIdx?` fails, the character does not occur. -/
theorem charIdx?_none (c : Char) (l : List Char) (h : charIdx? c l = none) :
    c ∉ l := by
  induction l with
  | nil => simp
  | cons a rest ih =>
    rw [charIdx?] at h
    by_cases ha : a = c
    · rw [if_pos ha] at h; exact absurd h (by simp)
    · rw [if_neg ha] at h
      rcases ho : charIdx? c rest with _ | i
      · intro hm
        rcases List.mem_cons.mp hm with hm | hm
        · exact ha hm.symm
        · exact ih ho hm
      · rw [ho] at h; exact absurd h (by simp)

/-- When `charIdx?` returns `i`, the character is absent before position `i`
and present at position `i`. -/
theorem charIdx?_some (c : Char) (l : List Char) (i : Nat)
    (h : charIdx? c l = some i) :
    c ∉ l.take i ∧ ∃ t, l.drop i = c :: t := by
  induction l generalizing i with
  | nil => exact absurd h (by simp [charIdx?])
  | cons a rest ih =>
    rw [charIdx?] at h
    by_cases ha : a = c
    · rw [if_pos ha] at h
      have : i = 0 := by simpa using h.symm
      subst this
      exact ⟨by simp, rest, by simp [ha]⟩
    · rw [if_neg ha] at h
      rcases ho : charIdx? c rest with _ | j
      · rw [ho] at h; exact absurd h (by simp)
      · rw [ho] at h
        have : i = j + 1 := by simpa using h.symm
        subst this
        obtain ⟨h1, t, h2⟩ := ih j ho
        refine ⟨?_, t, by simpa using h2⟩
        intro hm
        rcases List.mem_cons.mp (by simpa using hm) with hm | hm
        · exact ha hm.symm
        · exact h1 hm

/-- The href rewrite factors through the base rewrite: the fragment/query
suffix produced by `splitHref` is reattached unchanged whenever a rewrite
occurs. -/
theorem rewriteHref_factors (slugs : List (List Char)) (href : List Char) :
    rewriteHref slugs href =
      if isExternalHref href then none
      else Option.map (· ++ (splitHref href).2) (rewriteBase slugs (splitHref href).1) := by
  rw [rewriteHref, rewriteBase]
  by_cases h1 : isExternalHref href
  · rw [if_pos h1, if_pos h1]
  · rw [if_neg h1, if_neg h1]
    by_cases h2 : isSuffixList ".md".toList (splitHref href).1 = true
    · rw [if_pos h2, if_pos h2]; rfl
    · rw [if_neg h2, if_neg h2]
      by_cases h3 : (splitHref href).1.contains '.'
      · rw [if_pos h3, if_pos h3]; rfl
      · rw [if_neg h3, if_neg h3]
        split
        · show _ = Option.map _ (some _)
          rw [Option.map, List.append_assoc]
        · rfl

/-- C3: the four external href forms are left untouched, and `page.md`,
`page.md#sec` and the bare known slug `page` are rewritten to `page.html`,
`page.html#sec` and `page.html` respectively, given a document set whose
slugs are exactly the singleton `page`. -/
theorem c3_link_classification :
    rewriteHref ["page".toList] "https://x".toList = none ∧
    rewriteHref ["page".toList] "#frag".toList = none ∧
    rewriteHref ["page".toList] "/abs".toList = none ∧
    rewriteHref ["page".toList] "mailto:a@b".toList = none ∧
    rewriteHref ["page".toList] "page.md".toList = some "page.html".toList ∧
    rewriteHref ["page".toList] "page.md#sec".toList = some "page.html#sec".toList ∧
    rewriteHref ["page".toList] "page".toList = some "page.html".toList := by
  decide

/-- C4 counterexample: in `page.md?q#f` the `?` occurs at index 7, before
the `#` at index 9, yet the code splits at the `#` (`str::find('#')` is
consulted first, `src/main.rs` lines 183-188), producing base `page.md?q`;
that base neither ends in `.md` nor is extension-free, so the href is left
untouched — whereas splitting at the first of the two separators would
produce base `page.md` and a rewrite.  The claim is false at this input. -/
theorem c4_counterexample :
    splitHref "page.md?q#f".toList = ("page.md?q".toList, "#f".toList) ∧
    charIdx? '?' "page.md?q#f".toList = some 7 ∧
    charIdx? '#' "page.md?q#f".toList = some 9 ∧
    rewriteHref ["page".toList] "page.md?q#f".toList = none ∧
    rewriteHref ["page".toList] "page.md".toList = some "page.html".toList := by
  decide

/-- C4 amended: the rewriter splits a non-external href at the first `#`
when the href contains one, otherwise at the first `?` (not at whichever of
the two occurs first); the suffix from the split point onward is reattached
unchanged to the rewritten base path.  Stated as: the two split halves
reassemble to the href, the base contains no `#` (and no `?` when the
suffix starts with `?`, which happens only when the href has no `#`), and
the rewrite factors as base-rewrite plus verbatim suffix. -/
theorem c4_split_hash_first (slugs : List (List Char)) (href : List Char) :
    (splitHref href).1 ++ (splitHref href).2 = href ∧
    '#' ∉ (splitHref href).1 ∧
    ((splitHref href).2 = [] → '#' ∉ href ∧ '?' ∉ href) ∧
    (∀ c t, (splitHref href).2 = c :: t →
      c = '#' ∨ (c = '?' ∧ '#' ∉ href ∧ '?' ∉ (splitHref href).1)) ∧
    rewriteHref slugs href =
      if isExternalHref href then none
      else Option.map (· ++ (splitHref href).2) (rewriteBase slugs (splitHref href).1) := by
  have main : (splitHref href).1 ++ (splitHref href).2 = href ∧
      '#' ∉ (splitHref href).1 ∧
      ((splitHref href).2 = [] → '#' ∉ href ∧ '?' ∉ href) ∧
      (∀ c t, (splitHref href).2 = c :: t →
        c = '#' ∨ (c = '?' ∧ '#' ∉ href ∧ '?' ∉ (splitHref href).1)) := by
    rcases hh : charIdx? '#' href with _ | i
    · rcases hq : charIdx? '?' href with _ | j
      · have hs : splitHref href = (href, []) := by rw [splitHref, hh, hq]
        refine ⟨by simp [hs], by simp [hs, charIdx?_none '#' href hh],
          fun _ => ⟨charIdx?_none '#' href hh, charIdx?_none '?' href hq⟩,
          fun c t hct => absurd hct (by simp [hs])⟩
      · have hs : splitHref href = (href.take j, href.drop j) := by
          rw [splitHref, hh, hq]
        obtain ⟨hq1, t, hq2⟩ := charIdx?_some '?' href j hq
        refine ⟨by simp [hs], ?_, ?_, ?_⟩
        · rw [hs]
          intro hm
          exact charIdx?_none '#' href hh (List.mem_of_mem_take hm)
        · rw [hs]
          intro hdrop
          rw [hq2] at hdrop; exact absurd hdrop (by simp)
        · rw [hs]
          intro c t2 hct
          rw [hq2] at hct
          exact Or.inr ⟨(List.cons.inj hct).1.symm,
            charIdx?_none '#' href hh, hq1⟩
    · have hs : splitHref href = (href.take i, href.drop i) := by
        rw [splitHref, hh]
      obtain ⟨hh1, t, hh2⟩ := charIdx?_some '#' href i hh
      refine ⟨by simp [hs], by simpa [hs] using hh1, ?_, ?_⟩
      · rw [hs]
        intro hdrop
        rw [hh2] at hdrop; exact absurd hdrop (by simp)
      · rw [hs]
        intro c t2 hct
        rw [hh2] at hct
        exact Or.inl (List.cons.inj hct).1.symm
  exact ⟨main.1, main.2.1, main.2.2.1, main.2.2.2, rewriteHref_factors slugs href⟩

/-- C5 counterexample: for the internal href `a.md/b.md`, whose base path
ends in `.md` and also contains `.md` earlier, the code rewrites every
occurrence (`str::replace` replaces all matches), producing
`a.html/b.html` — not `a.md/b.html` as the claim (replace only the trailing
extension) requires. -/
theorem c5_counterexample :
    isSuffixList ".md".toList "a.md/b.md".toList = true ∧
    rewriteHref [] "a.md/b.md".toList = some "a.html/b.html".toList ∧
    "a.html/b.html".toList ≠ "a.md/b.html".toList := by
  decide

/-- When `.md` never occurs in a list, `replaceMdHtml` leaves an appended
final `.md` as the only replacement site. -/
theorem replaceMdHtml_append_md (l : List Char)
    (h : containsSeq ".md".toList l = false) :
    replaceMdHtml (l ++ ".md".toList) = l ++ ".html".toList := by
  induction l with
  | nil => rfl
  | cons c rest ih =>
    rw [containsSeq, Bool.or_eq_false_iff] at h
    obtain ⟨hpre, hrest⟩ := h
    rcases rest with _ | ⟨x, rest⟩
    · simp [replaceMdHtml]
    · rcases rest with _ | ⟨y, rest⟩
      · simp [replaceMdHtml]
      · have hne : ¬(c = '.' ∧ x = 'm' ∧ y = 'd') := by
          intro hcc
          simp [isPrefixList, hcc.1, hcc.2.1, hcc.2.2] at hpre
        have := ih hrest
        simpa [replaceMdHtml, hne] using this

/-- C5 amended: for a non-external href whose base path ends in `.md`, the
rewriter replaces every occurrence of `.md` in the base path with `.html`
(Rust `str::replace` semantics) — in particular the trailing extension —
and reattaches the fragment/query suffix unchanged; when `.md` occurs only
as the trailing extension, this coincides with replacing just the
extension. -/
theorem c5_md_extension_rewrite (slugs : List (List Char)) (href : List Char)
    (hext : isExternalHref href = false)
    (hmd : isSuffixList ".md".toList (splitHref href).1 = true) :
    rewriteHref slugs href =
      some (replaceMdHtml (splitHref href).1 ++ (splitHref href).2) ∧
    (∀ l : List Char, containsSeq ".md".toList l = false →
      replaceMdHtml (l ++ ".md".toList) = l ++ ".html".toList) := by
  refine ⟨?_, fun l hl => replaceMdHtml_append_md l hl⟩
  rw [rewriteHref, if_neg (by simp [hext]), if_pos hmd]

/-- Witness for C5 (amended) at the concrete href `x.md#s` with no known
slugs. -/
theorem c5_md_extension_rewrite_witness :
    rewriteHref [] "x.md#s".toList = some "x.html#s".toList :=
  (c5_md_extension_rewrite [] "x.md#s".toList (by decide) (by decide)).1

/-! ### Front-matter splitter: C9 -/

/-- C9: the splitter is fail-open.  Whenever no metadata is extracted — in
particular on a parse failure or a missing closing marker — the body is the
entire original text; metadata is extracted iff the text starts with the
opening marker `---\n`, a closing marker occurs in the remainder, and the
enclosed region parses; and on extraction the body is exactly the remainder
after the closing marker. -/
theorem c9_frontmatter_fail_open (parse : List Char → Option FrontMatter)
    (content : List Char) :
    ((extract_frontmatter parse content).1 = none →
      (extract_frontmatter parse content).2 = content) ∧
    ((extract_frontmatter parse content).1.isSome ↔
      (isPrefixList "---\n".toList content = true ∧
       ∃ e, findSeqIdx? "---\n".toList (content.drop 4) = some e ∧
            (parse ((content.drop 4).take e)).isSome)) ∧
    (∀ fm, (extract_frontmatter parse content).1 = some fm →
      ∃ e, findSeqIdx? "---\n".toList (content.drop 4) = some e ∧
           parse ((content.drop 4).take e) = some fm ∧
           (extract_frontmatter parse content).2 = content.drop (e + 8)) := by
  by_cases hp : isPrefixList ['-', '-', '-', '\n'] content = true
  · rcases he : findSeqIdx? ['-', '-', '-', '\n'] (content.drop 4) with _ | e
    · simp [extract_frontmatter, hp, he]
    · rcases hpar : parse ((content.drop 4).take e) with _ | fm
      · simp [extract_frontmatter, hp, he, hpar]
      · simp [extract_frontmatter, hp, he, hpar]
  · simp [extract_frontmatter, hp]

/-! ### Document ordering: C6 -/

/-- Inserting at any split point is one of the enumerated insertions. -/
theorem mem_insertEverywhere {α : Type} (a : α) (l1 l2 : List α) :
    (l1 ++ a :: l2) ∈ insertEverywhere a (l1 ++ l2) := by
  induction l1 with
  | nil => cases l2 <;> simp [insertEverywhere]
  | cons b l1 ih =>
    rw [List.cons_append, List.cons_append, insertEverywhere]
    exact List.mem_cons_of_mem _ (List.mem_map_of_mem (b :: ·) ih)

/-- Completeness of the permutation enumerator: every reordering of a list
is enumerated. -/
theorem mem_allPerms_of_perm {α : Type} {l m : List α} (h : l.Perm m) :
    l ∈ allPerms m := by
  induction m generalizing l with
  | nil =>
    rw [List.Perm.eq_nil h]
    simp [allPerms]
  | cons a m ih =>
    have ha : a ∈ l := h.mem_iff.mpr (List.mem_cons_self a m)
    obtain ⟨l1, l2, rfl⟩ := List.append_of_mem ha
    have hp : (l1 ++ l2).Perm m :=
      ((List.perm_middle.symm.trans h)).cons_inv
    rw [allPerms]
    exact List.mem_flatMap.mpr ⟨l1 ++ l2, ih hp, mem_insertEverywhere a l1 l2⟩

/-- C6: with `page_order: [b, a]` and discovered documents with slugs
`index`, `a`, `b`, `c` — in whatever order the directory traversal found
them — the processing/display order is exactly `index, b, a, c`: `index`
first, listed documents by list position, the unlisted `c` after all listed
ones. -/
theorem c6_page_order_sorting (l : List (List Char))
    (h : l.Perm ["index".toList, "a".toList, "b".toList, "c".toList]) :
    sortDocs [OrderEntry.str "b".toList, OrderEntry.str "a".toList] l =
      ["index".toList, "b".toList, "a".toList, "c".toList] := by
  have hmem : l ∈ allPerms ["index".toList, "a".toList, "b".toList, "c".toList] :=
    mem_allPerms_of_perm h
  have hall : (allPerms ["index".toList, "a".toList, "b".toList, "c".toList]).all
      (fun l2 =>
        sortDocs [OrderEntry.str "b".toList, OrderEntry.str "a".toList] l2 ==
          ["index".toList, "b".toList, "a".toList, "c".toList]) = true := by
    decide
  exact eq_of_beq (List.all_eq_true.mp hall l hmem)

/-- Witness for C6 at one concrete discovery order. -/
theorem c6_page_order_sorting_witness :
    sortDocs [OrderEntry.str "b".toList, OrderEntry.str "a".toList]
      ["index".toList, "a".toList, "b".toList, "c".toList] =
      ["index".toList, "b".toList, "a".toList, "c".toList] :=
  c6_page_order_sorting ["index".toList, "a".toList, "b".toList, "c".toList]
    (List.Perm.refl _)

/-! ### Navigation model: C2 and C8 -/

/-- Dropdown-membership only depends on the dropdown map's contents, not on
its iteration order. -/
theorem pageInDropdowns_perm (dd1 dd2 : List (List Char × DropVal))
    (h : dd1.Perm dd2) : pageInDropdowns dd1 = pageInDropdowns dd2 := by
  funext key
  unfold pageInDropdowns
  rw [Bool.eq_iff_iff, List.any_eq_true, List.any_eq_true]
  exact ⟨fun ⟨p, hp, hq⟩ => ⟨p, h.mem_iff.mp hp, hq⟩,
         fun ⟨p, hp, hq⟩ => ⟨p, h.mem_iff.mpr hp, hq⟩⟩

/-- C2 counterexample: the dropdown map is a Rust `std::collections::HashMap`
whose iteration order is unspecified and varies between runs.  For the same
configuration — dropdowns `A` and `B`, `page_order: [a]`, documents `index`
and `a` — two iteration orders of the same map (a permutation, first
conjunct) produce different navigation entry lists (second conjunct), so the
appended dropdowns follow the run's iteration order, not "the
configuration's own key order, identically on every run". -/
theorem c2_counterexample :
    [("A".toList, DropVal.seq []), ("B".toList, DropVal.seq [])].Perm
      [("B".toList, DropVal.seq []), ("A".toList, DropVal.seq [])] ∧
    navbarItemsPageOrder [OrderEntry.str "a".toList]
        [("index".toList, "Home".toList), ("a".toList, "A page".toList)]
        [("A".toList, DropVal.seq []), ("B".toList, DropVal.seq [])] ≠
      navbarItemsPageOrder [OrderEntry.str "a".toList]
        [("index".toList, "Home".toList), ("a".toList, "A page".toList)]
        [("B".toList, DropVal.seq []), ("A".toList, DropVal.seq [])] := by
  exact ⟨List.Perm.swap ("B".toList, DropVal.seq []) ("A".toList, DropVal.seq []) [],
    by decide⟩

/-- C2 amended: on both the `page_order` path and the no-ordering path, the
configured dropdowns are appended after all explicit entries, one per
configured dropdown, in the dropdown map's iteration order (which is
unspecified across runs); the explicit-entry part `E` (resp. `F`) is the
same for every iteration order of the same dropdown map, so the pipeline
output is identical across runs exactly when the iteration orders agree
(in particular whenever at most one dropdown is configured). -/
theorem c2_dropdowns_after_explicit (order : List OrderEntry)
    (docs : List (List Char × List Char)) (dd1 dd2 : List (List Char × DropVal))
    (h : dd1.Perm dd2) :
    (∃ E, navbarItemsPageOrder order docs dd1 =
        E ++ dd1.map (fun p => NavbarItem.dropdown p.1) ∧
      navbarItemsPageOrder order docs dd2 =
        E ++ dd2.map (fun p => NavbarItem.dropdown p.1)) ∧
    (∃ F, navbarItemsDefault docs dd1 =
        F ++ dd1.map (fun p => NavbarItem.dropdown p.1) ∧
      navbarItemsDefault docs dd2 =
        F ++ dd2.map (fun p => NavbarItem.dropdown p.1)) := by
  have hfn := pageInDropdowns_perm dd1 dd2 h
  constructor
  · refine ⟨_, rfl, ?_⟩
    unfold navbarItemsPageOrder
    rw [hfn]
  · refine ⟨_, rfl, ?_⟩
    unfold navbarItemsDefault
    rw [hfn]

/-- Witness for C2 (amended) at a concrete configuration. -/
theorem c2_dropdowns_after_explicit_witness :
    (∃ E, navbarItemsPageOrder [] [] [("A".toList, DropVal.seq [])] =
        E ++ [("A".toList, DropVal.seq [])].map (fun p => NavbarItem.dropdown p.1) ∧
      navbarItemsPageOrder [] [] [("A".toList, DropVal.seq [])] =
        E ++ [("A".toList, DropVal.seq [])].map (fun p => NavbarItem.dropdown p.1)) ∧
    (∃ F, navbarItemsDefault [] [("A".toList, DropVal.seq [])] =
        F ++ [("A".toList, DropVal.seq [])].map (fun p => NavbarItem.dropdown p.1) ∧
      navbarItemsDefault [] [("A".toList, DropVal.seq [])] =
        F ++ [("A".toList, DropVal.seq [])].map (fun p => NavbarItem.dropdown p.1)) :=
  c2_dropdowns_after_explicit [] [] _ _ (List.Perm.refl [("A".toList, DropVal.seq [])])

/-- C8 counterexample: documents `notes` and `a/notes` share the final
filename segment `notes`.  With no configuration, both become navbar
entries; rendering page `notes` marks both active (the activity test at
`src/main.rs` line 399 also accepts a match on the entry's filename stem),
so a render carries two active entries — the claim's "never two or more" is
false. -/
theorem c8_counterexample :
    (navbarActiveFlags
      (navbarItemsDefault
        [("notes".toList, "Notes".toList), ("a/notes".toList, "Also".toList)] [])
      (some "notes".toList)).count true = 2 := by
  decide

/-- A list without duplicates holds any element at most once. -/
theorem count_le_one_of_nodup {α : Type} [BEq α] [LawfulBEq α] (l : List α)
    (hl : l.Nodup) (a : α) : l.count a ≤ 1 := by
  induction l with
  | nil => simp
  | cons b rest ih =>
    rcases List.nodup_cons.mp hl with ⟨hb, hrest⟩
    by_cases hab : b = a
    · subst hab
      rw [List.count_cons_self]
      have h0 : rest.count b = 0 := List.count_eq_zero.mpr hb
      omega
    · rw [List.count_cons_of_ne (fun h => hab h.symm)]
      exact ih hrest

/-- With no current page, no navigation entry is active. -/
theorem entryActiveFlag_none_false (item : NavbarItem) (b : Bool)
    (hb : entryActiveFlag none item = some b) : b = false := by
  rcases item with ⟨relKey, title⟩ | ⟨url, text⟩ | name
  · by_cases hidx : relKey = "index".toList
    · simp [entryActiveFlag, hidx] at hb
    · rw [entryActiveFlag, if_neg hidx] at hb
      exact (Option.some.inj hb).symm
  · exact (Option.some.inj hb).symm
  · exact (Option.some.inj hb).symm

/-- Flag lists whose entries are all forced false count no active entry. -/
theorem activeFlags_count_zero (items : List NavbarItem) (cp : Option (List Char))
    (h : ∀ item ∈ items, ∀ b, entryActiveFlag cp item = some b → b = false) :
    (items.filterMap (entryActiveFlag cp)).count true = 0 := by
  induction items with
  | nil => rfl
  | cons item rest ih =>
    have ih2 := ih (fun x hx => h x (List.mem_cons_of_mem item hx))
    rcases hf : entryActiveFlag cp item with _ | b
    · simpa only [List.filterMap_cons, hf] using ih2
    · have hb := h item (List.mem_cons_self item rest) b hf
      subst hb
      simp only [List.filterMap_cons, hf]
      rw [List.count_cons_of_ne (by simp)]
      exact ih2

/-- Each active markdown entry accounts for one occurrence of the current
page key among the navbar's markdown keys. -/
theorem activeFlags_count_le (items : List NavbarItem) (c : List Char)
    (hstem : ∀ relKey title, NavbarItem.markdownFile relKey title ∈ items →
      c = lastSegment relKey → c = relKey) :
    (items.filterMap (entryActiveFlag (some c))).count true ≤
      (mdKeys items).count c := by
  induction items with
  | nil => simp [mdKeys]
  | cons item rest ih =>
    have ih2 := ih (fun k t hm he => hstem k t (List.mem_cons_of_mem item hm) he)
    rcases item with ⟨relKey, title⟩ | ⟨url, text⟩ | name
    · have hkeys : mdKeys (NavbarItem.markdownFile relKey title :: rest) =
          relKey :: mdKeys rest := by
        simp [mdKeys, List.filterMap_cons]
      by_cases hidx : relKey = "index".toList
      · have hflags : (NavbarItem.markdownFile relKey title :: rest).filterMap
            (entryActiveFlag (some c)) =
            rest.filterMap (entryActiveFlag (some c)) := by
          simp only [List.filterMap_cons, entryActiveFlag, if_pos hidx]
        rw [hflags, hkeys]
        exact le_trans ih2 (List.count_le_count_cons c relKey _)
      · by_cases hb : (decide (c = relKey) || decide (c = lastSegment relKey)) = true
        · have hcr : c = relKey := by
            rcases (by simpa using hb : c = relKey ∨ c = lastSegment relKey) with h1 | h1
            · exact h1
            · exact hstem relKey title (List.mem_cons_self _ _) h1
          have hflags : (NavbarItem.markdownFile relKey title :: rest).filterMap
              (entryActiveFlag (some c)) =
              true :: rest.filterMap (entryActiveFlag (some c)) := by
            simp only [List.filterMap_cons, entryActiveFlag, if_neg hidx, hb]
          rw [hflags, hkeys, ← hcr, List.count_cons_self, List.count_cons_self]
          omega
        · have hbf : (decide (c = relKey) || decide (c = lastSegment relKey)) = false := by
            simpa using hb
          have hflags : (NavbarItem.markdownFile relKey title :: rest).filterMap
              (entryActiveFlag (some c)) =
              false :: rest.filterMap (entryActiveFlag (some c)) := by
            simp only [List.filterMap_cons, entryActiveFlag, if_neg hidx, hbf]
          rw [hflags, hkeys, List.count_cons_of_ne (by simp)]
          exact le_trans ih2 (List.count_le_count_cons c relKey _)
    · have hflags : (NavbarItem.externalLink url text :: rest).filterMap
          (entryActiveFlag (some c)) =
          false :: rest.filterMap (entryActiveFlag (some c)) := by
        simp only [List.filterMap_cons, entryActiveFlag]
      have hkeys : mdKeys (NavbarItem.externalLink url text :: rest) =
          mdKeys rest := by
        simp [mdKeys, List.filterMap_cons]
      rw [hflags, hkeys, List.count_cons_of_ne (by simp)]
      exact ih2
    · have hflags : (NavbarItem.dropdown name :: rest).filterMap
          (entryActiveFlag (some c)) =
          false :: rest.filterMap (entryActiveFlag (some c)) := by
        simp only [List.filterMap_cons, entryActiveFlag]
      have hkeys : mdKeys (NavbarItem.dropdown name :: rest) = mdKeys rest := by
        simp [mdKeys, List.filterMap_cons]
      rw [hflags, hkeys, List.count_cons_of_ne (by simp)]
      exact ih2

/-- C8 amended: the root/logo entry is active iff the rendered page is
`index`, and a markdown entry is active iff the page key equals the entry's
key or the entry's filename stem.  Consequently at most one navigation
entry is active per render whenever the navbar's markdown keys are
pairwise distinct and no entry's filename stem equals the rendered page's
key unless it is that entry's own key — but two or more entries can be
active when distinct documents share a final filename segment (see the
counterexample). -/
theorem c8_at_most_one_active (items : List NavbarItem) (cp : Option (List Char))
    (hnodup : (mdKeys items).Nodup)
    (hstem : ∀ relKey title, NavbarItem.markdownFile relKey title ∈ items →
      cp = some (lastSegment relKey) → cp = some relKey) :
    (navbarActiveFlags items cp).count true ≤ 1 := by
  rcases cp with _ | c
  · have h0 := activeFlags_count_zero items none
      (fun item _ b hb => entryActiveFlag_none_false item b hb)
    show List.count true (false :: items.filterMap (entryActiveFlag none)) ≤ 1
    rw [List.count_cons_of_ne (by simp), h0]
    omega
  · by_cases hc : c = "index".toList
    · subst hc
      have h0 := activeFlags_count_zero items (some "index".toList)
        (fun item hm b hb => by
          rcases item with ⟨relKey, title⟩ | ⟨url, text⟩ | name
          · by_cases hidx : relKey = "index".toList
            · simp [entryActiveFlag, hidx] at hb
            · rw [entryActiveFlag, if_neg hidx] at hb
              have hb2 := (Option.some.inj hb).symm
              rcases hd : decide ("index".toList = lastSegment relKey) with _ | _
              · rw [hb2, hd]
                simp only [Bool.or_false, decide_eq_false_iff_not]
                exact fun h => hidx h.symm
              · exfalso
                have hst := hstem relKey title hm
                  (congrArg some (of_decide_eq_true hd))
                exact hidx (Option.some.inj hst).symm
          · exact (Option.some.inj hb).symm
          · exact (Option.some.inj hb).symm)
      show List.count true (decide ("index".toList = "index".toList) ::
        items.filterMap (entryActiveFlag (some "index".toList))) ≤ 1
      rw [List.count_cons, h0]
      simp
    · have hle := activeFlags_count_le items c (fun k t hm he =>
        Option.some.inj (hstem k t hm (congrArg some he)))
      have hcount : (mdKeys items).count c ≤ 1 :=
        count_le_one_of_nodup (mdKeys items) hnodup c
      show List.count true (decide (c = "index".toList) ::
        items.filterMap (entryActiveFlag (some c))) ≤ 1
      rw [List.count_cons_of_ne (fun heq => hc (of_decide_eq_true heq.symm))]
      omega

/-- Witness for C8 (amended) at a concrete navbar. -/
theorem c8_at_most_one_active_witness :
    (navbarActiveFlags
      [NavbarItem.markdownFile "notes".toList "Notes".toList,
       NavbarItem.markdownFile "math/sir".toList "SIR".toList]
      (some "notes".toList)).count true ≤ 1 :=
  c8_at_most_one_active
    [NavbarItem.markdownFile "notes".toList "Notes".toList,
     NavbarItem.markdownFile "math/sir".toList "SIR".toList]
    (some "notes".toList) (by decide)
    (by
      intro relKey title hm he
      rcases List.mem_cons.mp hm with h1 | hm2
      · rw [(NavbarItem.markdownFile.inj h1).1]
      · rcases List.mem_cons.mp hm2 with h1 | hm3
        · exfalso
          rw [(NavbarItem.markdownFile.inj h1).1] at he
          exact absurd (Option.some.inj he) (by decide)
        · exact absurd hm3 (List.not_mem_nil _))

/-! ### Document discovery: C10 -/

/-- A successful `lastIdxOf` names a valid position holding the character. -/
theorem lastIdxOf_spec (c : Char) (l : List Char) (i : Nat)
    (h : lastIdxOf c l = some i) :
    i < l.length ∧ l.drop i = c :: l.drop (i + 1) := by
  induction l generalizing i with
  | nil => exact absurd h (by simp [lastIdxOf])
  | cons a rest ih =>
    rw [lastIdxOf] at h
    rcases ho : lastIdxOf c rest with _ | j
    · rw [ho] at h
      by_cases hac : a = c
      · rw [if_pos hac] at h
        have hz : i = 0 := by simpa using h.symm
        subst hz
        simp [hac]
      · rw [if_neg hac] at h
        exact absurd h (by simp)
    · rw [ho] at h
      have hs : i = j + 1 := by simpa using h.symm
      subst hs
      obtain ⟨h1, h2⟩ := ih j ho
      exact ⟨by simpa using Nat.succ_lt_succ h1, by simpa using h2⟩

/-- A filename with extension `md` is its stem followed by `.md`, and the
stem is nonempty. -/
theorem fileStemExt_md (name : List Char)
    (h : (fileStemExt name).2 = some "md".toList) :
    name = (fileStemExt name).1 ++ ".md".toList ∧ (fileStemExt name).1 ≠ [] := by
  rcases ho : lastIdxOf '.' name with _ | i
  · simp only [fileStemExt, ho] at h
    exact absurd h (by simp)
  · by_cases hi : i = 0
    · simp only [fileStemExt, ho, if_pos hi] at h
      exact absurd h (by simp)
    · obtain ⟨hlt, hdrop⟩ := lastIdxOf_spec '.' name i ho
      have hstem : fileStemExt name = (name.take i, some (name.drop (i + 1))) := by
        simp only [fileStemExt, ho, if_neg hi]
      rw [hstem] at h ⊢
      simp only [Option.some.injEq] at h
      constructor
      · conv_lhs => rw [← List.take_append_drop i name]
        rw [hdrop, h]
        rfl
      · intro hnil
        have hlen := congrArg List.length hnil
        rw [List.length_take] at hlen
        simp only [List.length_nil, Nat.min_eq_zero_iff] at hlen
        rcases hlen with h1 | h1
        · exact hi h1
        · omega

/-- Splitting at the separator is unambiguous for slash-free halves. -/
theorem append_slash_inj (A B : List Char) :
    ∀ a b : List Char, '/' ∉ a → '/' ∉ b →
      a ++ '/' :: A = b ++ '/' :: B → a = b ∧ A = B := by
  intro a
  induction a with
  | nil =>
    intro b ha hb h
    cases b with
    | nil => exact ⟨rfl, (List.cons.inj h).2⟩
    | cons y b2 =>
      exfalso
      have hy := (List.cons.inj h).1
      exact hb (by rw [hy]; exact List.mem_cons_self y b2)
  | cons x a2 ih =>
    intro b ha hb h
    cases b with
    | nil =>
      exfalso
      have hx := (List.cons.inj h).1
      exact ha (by rw [← hx]; exact List.mem_cons_self x a2)
    | cons y b2 =>
      obtain ⟨hxy, hrest⟩ := List.cons.inj h
      obtain ⟨h1, h2⟩ := ih b2 (fun hm => ha (List.mem_cons_of_mem x hm))
        (fun hm => hb (List.mem_cons_of_mem y hm)) hrest
      exact ⟨by rw [hxy, h1], h2⟩

/-- `joinSlash` is injective on lists of nonempty slash-free segments. -/
theorem joinSlash_inj : ∀ xs ys : List (List Char),
    (∀ d ∈ xs, d ≠ [] ∧ '/' ∉ d) → (∀ d ∈ ys, d ≠ [] ∧ '/' ∉ d) →
    joinSlash xs = joinSlash ys → xs = ys
  | [], [], _, _, _ => rfl
  | [], [y], _, hy, h => by
    exact absurd (by simpa [joinSlash] using h.symm) (hy y (List.mem_cons_self y [])).1
  | [], y :: y2 :: ys, _, hy, h => by
    exfalso
    have hlen := congrArg List.length h
    simp [joinSlash] at hlen
    omega
  | [x], [], hx, _, h => by
    exact absurd (by simpa [joinSlash] using h) (hx x (List.mem_cons_self x [])).1
  | x :: x2 :: xs, [], hx, _, h => by
    exfalso
    have hlen := congrArg List.length h
    simp [joinSlash] at hlen
  | [x], [y], _, _, h => by
    rw [show joinSlash [x] = x from rfl, show joinSlash [y] = y from rfl] at h
    rw [h]
  | [x], y :: y2 :: ys, hx, hy, h => by
    exfalso
    have hmem : '/' ∈ joinSlash (y :: y2 :: ys) := by
      rw [joinSlash]
      exact List.mem_append.mpr (Or.inr (List.mem_cons_self '/' _))
    rw [show joinSlash [x] = x from rfl] at h
    rw [← h] at hmem
    exact (hx x (List.mem_cons_self x [])).2 hmem
  | x :: x2 :: xs, [y], hx, hy, h => by
    exfalso
    have hmem : '/' ∈ joinSlash (x :: x2 :: xs) := by
      rw [joinSlash]
      exact List.mem_append.mpr (Or.inr (List.mem_cons_self '/' _))
    rw [show joinSlash [y] = y from rfl] at h
    rw [h] at hmem
    exact (hy y (List.mem_cons_self y [])).2 hmem
  | x :: x2 :: xs, y :: y2 :: ys, hx, hy, h => by
    rw [joinSlash, joinSlash] at h
    obtain ⟨h1, h2⟩ := append_slash_inj (joinSlash (x2 :: xs)) (joinSlash (y2 :: ys))
      x y (hx x (List.mem_cons_self x _)).2 (hy y (List.mem_cons_self y _)).2 h
    have hrec := joinSlash_inj (x2 :: xs) (y2 :: ys)
      (fun d hd => hx d (List.mem_cons_of_mem x hd))
      (fun d hd => hy d (List.mem_cons_of_mem y hd)) h2
    rw [h1, hrec]

/-- C10: a markdown file whose stem is `README` under ASCII-case-insensitive
comparison, or whose contents after leading whitespace start with
`<!DOCTYPE` or `<html`, is excluded from the discovered document set: it is
not among the discovered files (so the processing loop writes no output
page for it), its slug is not a known slug for link rewriting, and no
navigation entry carries its slug.  The path hypotheses say the entries
came from a real directory tree: paths are distinct, path segments are
nonempty and contain no separator. -/
theorem c10_discovery_exclusions (parse : List Char → Option FrontMatter)
    (dd : List (List Char × DropVal)) (entries : List FsEntry) (e : FsEntry)
    (he : e ∈ entries)
    (hmd : (fileStemExt e.filename).2 = some "md".toList)
    (hexc : eqIgnoreAsciiCase (fileStemExt e.filename).1 "README".toList = true ∨
      isPrefixList "<!DOCTYPE".toList (trimStartList e.content) = true ∨
      isPrefixList "<html".toList (trimStartList e.content) = true)
    (hpaths : (entries.map (fun x => (x.dirs, x.filename))).Nodup)
    (hseg : ∀ x ∈ entries, (∀ d ∈ x.dirs, d ≠ [] ∧ '/' ∉ d) ∧ '/' ∉ x.filename) :
    e ∉ find_markdown_files entries ∧
    slugOf e ∉ knownSlugs entries ∧
    (∀ title, NavbarItem.markdownFile (slugOf e) title ∉
      navbarItemsDefault (discoveredDocs parse entries) dd) := by
  have hkept : fileKept e.filename e.content = false := by
    rw [fileKept]
    rcases hexc with h1 | h1 | h1 <;> rw [h1] <;> simp
  have part1 : e ∉ find_markdown_files entries := by
    intro hmem
    rw [find_markdown_files, List.mem_filter] at hmem
    rw [hmem.2] at hkept
    exact Bool.true_eq_false.mp hkept
  have stem_wf : ∀ x : FsEntry, x ∈ entries →
      (fileStemExt x.filename).2 = some "md".toList →
      (fileStemExt x.filename).1 ≠ [] ∧ '/' ∉ (fileStemExt x.filename).1 := by
    intro x hx hxmd
    obtain ⟨hname, hne⟩ := fileStemExt_md x.filename hxmd
    refine ⟨hne, fun hm => (hseg x hx).2 ?_⟩
    rw [hname]
    exact List.mem_append.mpr (Or.inl hm)
  have part2 : slugOf e ∉ knownSlugs entries := by
    intro hmem
    rw [knownSlugs, List.mem_map] at hmem
    obtain ⟨x, hxf, hxe⟩ := hmem
    rw [find_markdown_files, List.mem_filter] at hxf
    obtain ⟨hxent, hxk⟩ := hxf
    have hxmd : (fileStemExt x.filename).2 = some "md".toList := by
      have hthis := hxk
      rw [fileKept] at hthis
      simp only [Bool.and_eq_true, beq_iff_eq] at hthis
      exact hthis.1.1.1
    -- the two slugs decompose into equal directory lists and equal stems
    have hwx := stem_wf x hxent hxmd
    have hwe := stem_wf e he hmd
    have hsegs := joinSlash_inj (x.dirs ++ [(fileStemExt x.filename).1])
      (e.dirs ++ [(fileStemExt e.filename).1])
      (fun d hd => by
        rcases List.mem_append.mp hd with hd | hd
        · exact (hseg x hxent).1 d hd
        · rw [List.mem_singleton.mp hd]; exact hwx)
      (fun d hd => by
        rcases List.mem_append.mp hd with hd | hd
        · exact (hseg e he).1 d hd
        · rw [List.mem_singleton.mp hd]; exact hwe)
      hxe
    have hrev := congrArg List.reverse hsegs
    rw [List.reverse_append, List.reverse_append] at hrev
    simp only [List.reverse_cons, List.reverse_nil, List.nil_append,
      List.singleton_append] at hrev
    obtain ⟨hstem_eq, hdirs_rev⟩ := List.cons.inj hrev
    have hdirs_eq : x.dirs = e.dirs := List.reverse_inj.mp hdirs_rev
    have hfile_eq : x.filename = e.filename := by
      rw [(fileStemExt_md x.filename hxmd).1, (fileStemExt_md e.filename hmd).1,
        hstem_eq]
    have hxeq : x = e := List.inj_on_of_nodup_map hpaths hxent he (by
      rw [hdirs_eq, hfile_eq])
    rw [hxeq, hkept] at hxk
    exact Bool.false_eq_true.mp hxk
  refine ⟨part1, part2, ?_⟩
  intro title hmem
  rw [navbarItemsDefault] at hmem
  rcases List.mem_append.mp hmem with hmem | hmem
  · rw [List.mem_filterMap] at hmem
    obtain ⟨d, hd, heq⟩ := hmem
    have hd1 : d.1 = slugOf e := by
      by_cases hcond : (d.1 == "index".toList || !(pageInDropdowns dd d.1)) = true
      · rw [if_pos hcond] at heq
        exact (NavbarItem.markdownFile.inj (Option.some.inj heq)).1
      · rw [if_neg hcond] at heq
        exact absurd heq (by simp)
    rw [discoveredDocs, List.mem_map] at hd
    obtain ⟨x, hxf, hxd⟩ := hd
    apply part2
    rw [knownSlugs, List.mem_map]
    refine ⟨x, hxf, ?_⟩
    rw [← hd1, ← hxd]
  · rw [List.mem_map] at hmem
    obtain ⟨p, _, hp⟩ := hmem
    exact absurd hp (by simp)

/-- Witness for C10 at a concrete two-file tree: `docs/README.md` is
excluded although `a.md` is kept. -/
theorem c10_discovery_exclusions_witness :
    (⟨["docs".toList], "README.md".toList, "hello".toList⟩ : FsEntry) ∉
      find_markdown_files
        [⟨["docs".toList], "README.md".toList, "hello".toList⟩,
         ⟨[], "a.md".toList, "text".toList⟩] ∧
    slugOf ⟨["docs".toList], "README.md".toList, "hello".toList⟩ ∉
      knownSlugs
        [⟨["docs".toList], "README.md".toList, "hello".toList⟩,
         ⟨[], "a.md".toList, "text".toList⟩] ∧
    (∀ title, NavbarItem.markdownFile
        (slugOf ⟨["docs".toList], "README.md".toList, "hello".toList⟩) title ∉
      navbarItemsDefault
        (discoveredDocs (fun _ => none)
          [⟨["docs".toList], "README.md".toList, "hello".toList⟩,
           ⟨[], "a.md".toList, "text".toList⟩]) []) :=
  c10_discovery_exclusions (fun _ => none) []
    [⟨["docs".toList], "README.md".toList, "hello".toList⟩,
     ⟨[], "a.md".toList, "text".toList⟩]
    ⟨["docs".toList], "README.md".toList, "hello".toList⟩
    (by decide) (by decide) (Or.inl (by decide)) (by decide) (by decide)

end Ideeep
